import Mathlib

/-!
Shallow embedding of the frieda automata library, covering the acceptance
layer (`AcceptanceMask`, `OmegaAcceptanceCondition`), the fallible NTS→DTS
determinism check, the HOA block extractor (`pop_omega_automaton`), the
symbolic HOA alphabet (`HoaSymbol`, `HoaExpression`, `HoaUniverse`) and the
state-restriction view (`RestrictByStateIndex`).  Rust machine integers are
modelled as `Nat` with explicit truncation where the source masks bits;
panics (`assert!`, `unwrap`, `todo!`, `unimplemented!`) are modelled as
`none` of an `Option`-valued result.
-/

namespace Frieda

/-- `BitSet::iter().next()` on an ascending iterator: the least element of a
finite set of small naturals, `none` when the set is empty. -/
def finsetMin (s : Finset ℕ) : Option ℕ :=
  if h : s.Nonempty then some (s.min' h) else none

/-- An `AcceptanceMask` is a `BitSet`, i.e. a finite set of small nonnegative
integers recording acceptance-set membership (src/src/automaton/omega.rs). -/
abbrev AcceptanceMask : Type := Finset ℕ

/-- `AcceptanceMask::try_as_priority`: the first element of the ascending
iterator, i.e. the minimum of the bit set; `none` on the empty mask.  (The
source logs a warning when more than one bit is set and still returns the
minimum.) -/
def AcceptanceMask.tryAsPriority (m : AcceptanceMask) : Option ℕ :=
  finsetMin m

/-- `AcceptanceMask::as_priority`: `try_as_priority().unwrap()`, panicking on
an empty mask.  We keep the `Option` to record the panic. -/
def AcceptanceMask.asPriority (m : AcceptanceMask) : Option ℕ :=
  m.tryAsPriority

/-- The tagged acceptance-condition variants of
src/src/automaton/omega.rs. -/
inductive OmegaAcceptanceCondition : Type
  | parity (low high : ℕ)
  | buchi
  | rabin
  | streett
  | maxParity
  | coBuchi
  | reachability
  | safety
  deriving DecidableEq

/-- Whether the condition is literally the `Parity` variant (the `matches!`
test in `into_dpa`). -/
def OmegaAcceptanceCondition.isParity : OmegaAcceptanceCondition → Bool
  | .parity _ _ => true
  | _ => false

/-- `OmegaAcceptanceCondition::satisfied` from src/src/automaton/omega.rs:
for `Parity` it takes `infset.iter().map(|x| x.as_priority()).min()`, and the
result is even-ness of that minimum (`false` when the set is empty).
`as_priority` unwraps, so iteration panics (`none`) as soon as some mask in
`infset` is empty; every non-`Parity` variant hits `unimplemented!()`
(also `none`). -/
def OmegaAcceptanceCondition.satisfied (c : OmegaAcceptanceCondition)
    (infset : Finset AcceptanceMask) : Option Bool :=
  match c with
  | .parity _ _ =>
      if _h : ∀ m ∈ infset, (m : Finset ℕ).Nonempty then
        some (match finsetMin (infset.image fun m => (finsetMin m).getD 0) with
              | none => false
              | some p => decide (p % 2 = 0))
      else none
  | _ => none

/-- The maximal number of atomic propositions, a constant of the external
`hoars` library.  Its value 8 is forced by the embedding target: a
`HoaSymbol`'s representation is a `u8` into which `bdd_valuation_to_hoa_symbol`
packs one bit per index `0..MAX_APS`, and `HoaUniverse` compares the `u8`
counter against `2^aps` in `u16` precisely because `2^8` overflows `u8`. -/
def MAX_APS : ℕ := 8

/-- `HoaSymbol` from src/src/hoa.rs: a valuation packed into a `u8`
(`repr`) together with the number of atomic propositions it ranges over. -/
structure HoaSymbol where
  repr : ℕ
  aps : ℕ
  deriving DecidableEq

/-- `HoaSymbol::to_char`: asserts `aps <= MAX_APS` (panic modelled as
`none`), then returns `'a' + (repr & 0b1111)`, truncating the representation
to its low four bits. -/
def HoaSymbol.toChar (s : HoaSymbol) : Option Char :=
  if s.aps ≤ MAX_APS then some (Char.ofNat ('a'.toNat + s.repr % 16)) else none

/-- `HoaSymbol::from_char`: asserts `aps <= MAX_APS`, `'a' < value` (strict)
and `value <= 'p'` (panics modelled as `none`), then unpacks
`(value - 'a') & 0b1111`. -/
def HoaSymbol.fromChar (c : Char) (aps : ℕ) : Option HoaSymbol :=
  if aps ≤ MAX_APS ∧ 'a'.toNat < c.toNat ∧ c.toNat ≤ 'p'.toNat then
    some ⟨(c.toNat - 'a'.toNat) % 16, aps⟩
  else none

/-- `Ord for HoaSymbol` in src/src/hoa.rs: the body is `todo!()`, so every
comparison panics (modelled as `none`); `PartialOrd` delegates to it and
panics as well. -/
def HoaSymbol.cmp (_s _t : HoaSymbol) : Option Ordering := none

/-- A BDD valuation of the external biodivine library over the fixed
`MAX_APS`-variable set `ALPHABET`: one bit per variable, packed into a
natural below `2 ^ MAX_APS` (bit `i` is the value of `VARS[i]`). -/
abbrev BddValuation : Type := Fin (2 ^ MAX_APS)

/-- A `Bdd` over `ALPHABET`, modelled canonically by its set of satisfying
complete valuations: biodivine BDDs are reduced and ordered, so two BDDs are
equal exactly when they denote the same boolean function, `eval_in` is
membership of the valuation, and `sat_valuations` enumerates the members. -/
abbrev Bdd : Type := Finset BddValuation

/-- `bdd_valuation_to_hoa_symbol` from src/src/hoa.rs: `aps` is
`valuation.num_vars()`, which is `MAX_APS` for every valuation over
`ALPHABET`, and `repr` collects the bit of `VARS[i]` for each
`i < MAX_APS`. -/
def bddValuationToHoaSymbol (v : BddValuation) : HoaSymbol :=
  ⟨v.val, MAX_APS⟩

/-- `HoaSymbol::as_bdd_valuation`: start from the all-false valuation over
`MAX_APS` variables and copy bit `i` of `repr` for each `i < aps`; the
resulting packed value is `repr % 2 ^ aps`.  Indexing `VARS[i]` panics when
`aps > MAX_APS` (modelled as `none`). -/
def HoaSymbol.asBddValuation (s : HoaSymbol) : Option BddValuation :=
  if h : s.aps ≤ MAX_APS then
    some ⟨s.repr % 2 ^ s.aps,
      lt_of_lt_of_le (Nat.mod_lt _ (Nat.pos_pow_of_pos s.aps (by norm_num)))
        (Nat.pow_le_pow_right (by norm_num) h)⟩
  else none

/-- `HoaExpression` from src/src/hoa.rs: a BDD over `ALPHABET` together with
the proposition count of the alphabet it was built for. -/
structure HoaExpression where
  bdd : Bdd
  aps : ℕ
  deriving DecidableEq

/-- `Expression::matches` for `HoaExpression`:
`self.bdd.eval_in(&symbol.as_bdd_valuation())`. -/
def HoaExpression.matches (e : HoaExpression) (s : HoaSymbol) : Option Bool :=
  (s.asBddValuation).map fun v => decide (v ∈ e.bdd)

/-- `Expression::symbols` for `HoaExpression` (`HoaExpressionIter`): one
`HoaSymbol` per satisfying valuation of the BDD, via
`bdd_valuation_to_hoa_symbol`; the iterator's `aps` field is unused in the
source.  Taken as the set of produced symbols. -/
def HoaExpression.symbols (e : HoaExpression) : Finset HoaSymbol :=
  e.bdd.image bddValuationToHoaSymbol

/-- `hoa_symbol_to_hoa_expression`: the BDD whose unique satisfying valuation
is the symbol's, paired with the symbol's proposition count. -/
def hoaSymbolToHoaExpression (s : HoaSymbol) : Option HoaExpression :=
  (s.asBddValuation).map fun v => ⟨{v}, s.aps⟩

/-- `HoaUniverse` from src/src/hoa.rs: `new` asserts `aps < MAX_APS`
(modelled as `none`), and the iterator yields the symbol `⟨repr, aps⟩` for
every `repr` in `0 .. 2 ^ aps`.  Taken as the set of produced symbols. -/
def hoaUniverse (aps : ℕ) : Option (Finset HoaSymbol) :=
  if aps < MAX_APS then
    some ((Finset.range (2 ^ aps)).image fun r => ⟨r, aps⟩)
  else none

/-- `HoaAlphabet` from src/src/hoa.rs: the proposition names together with
the `RefCell<Set<HoaExpression>>` memoization cache of built expressions. -/
structure HoaAlphabet where
  apnames : List String
  expressions : Finset HoaExpression
  deriving DecidableEq

/-- The derived `PartialEq for HoaAlphabet`: field-wise comparison, i.e. the
proposition names and the contents of the expression cache (Rust's
`RefCell<T>` and `Set<T>` compare their contents). -/
def HoaAlphabet.eqTest (a b : HoaAlphabet) : Bool :=
  decide (a.apnames = b.apnames) && decide (a.expressions = b.expressions)

/-- An alphabet in the sense of the `Alphabet` trait, as far as the
determinism check needs it: a finite universe of symbols and the
`matches(expression, symbol)` predicate. -/
structure FAlphabet (Sym E : Type) where
  syms : List Sym
  matchesFn : E → Sym → Bool

/-- `NTS`: growable indexed state container (state `i` carries `states[i]`)
with an unrestricted edge list; an edge is `(source, expression, color,
target)`. -/
structure NTS (Sym E Q C : Type) where
  alphabet : FAlphabet Sym E
  states : List Q
  edges : List (ℕ × E × C × ℕ)

/-- Modelled from the spec: `NTS::is_deterministic` (the body lives in
nts.rs, which is not among the sources; src/src/transition_system/impls/dts.rs
only calls it).  Per the spec, the check fails exactly when some state has
two outgoing edges matching a common symbol; edge occurrences are
distinguished by their position in the edge list. -/
def NTS.isDeterministic {Sym E Q C : Type} (nts : NTS Sym E Q C) : Bool :=
  nts.edges.enum.all fun p =>
    nts.edges.enum.all fun q =>
      decide (p.1 = q.1) || decide (p.2.1 ≠ q.2.1) ||
      nts.alphabet.syms.all fun a =>
        !(nts.alphabet.matchesFn p.2.2.1 a && nts.alphabet.matchesFn q.2.2.1 a)

/-- Two distinct edge occurrences leaving a common state whose expressions
match a common symbol: the situation in which the determinism check fails. -/
def NTS.hasCommonMatch {Sym E Q C : Type} (nts : NTS Sym E Q C) : Prop :=
  ∃ p ∈ nts.edges.enum, ∃ q ∈ nts.edges.enum,
    p.1 ≠ q.1 ∧ p.2.1 = q.2.1 ∧
    ∃ a ∈ nts.alphabet.syms,
      nts.alphabet.matchesFn p.2.2.1 a = true ∧
      nts.alphabet.matchesFn q.2.2.1 a = true

/-- `DTS`: a thin wrapper around `NTS` enforcing determinism
(src/src/transition_system/impls/dts.rs). -/
structure DTS (Sym E Q C : Type) where
  nts : NTS Sym E Q C

/-- `TryFrom<NTS> for DTS`: fails (with the unit error type) when
`is_deterministic` is false, otherwise wraps the NTS unchanged. -/
def DTS.tryFromNTS {Sym E Q C : Type} (nts : NTS Sym E Q C) :
    Option (DTS Sym E Q C) :=
  if nts.isDeterministic then some ⟨nts⟩ else none

/-- `OmegaAutomaton` from src/src/automaton/omega.rs: a pointed NTS with
`usize` state colors and `AcceptanceMask` edge colors, plus an acceptance
condition. -/
structure OmegaAutomatonM (Sym E : Type) where
  ts : NTS Sym E ℕ AcceptanceMask
  initial : ℕ
  acc : OmegaAcceptanceCondition

/-- `DeterministicOmegaAutomaton`: the same with a `DTS`. -/
structure DeterministicOmegaAutomatonM (Sym E : Type) where
  ts : DTS Sym E ℕ AcceptanceMask
  initial : ℕ
  acc : OmegaAcceptanceCondition

/-- `TryFrom<OmegaAutomaton> for DeterministicOmegaAutomaton`:
`value.ts.try_into()?` followed by `Self::new(dts, value.acc)` — the graph
goes through the NTS→DTS determinism check, the initial state and the
acceptance condition are passed along. -/
def DeterministicOmegaAutomatonM.tryFromOmega {Sym E : Type}
    (oa : OmegaAutomatonM Sym E) : Option (DeterministicOmegaAutomatonM Sym E) :=
  match DTS.tryFromNTS oa.ts with
  | none => none
  | some d => some ⟨d, oa.initial, oa.acc⟩

/-- A concrete deterministic NTS over the two-letter alphabet, used to
instantiate the NTS→DTS conversion. -/
def ntsW : NTS Char Char Unit Unit :=
  ⟨⟨['a', 'b'], fun e a => decide (e = a)⟩, [()], [(0, 'a', (), 0)]⟩

/-- A concrete omega automaton with two edges from state 0 matching the
common symbol `'a'`, so the determinism check fails on it. -/
def oaW : OmegaAutomatonM Char Char :=
  ⟨⟨⟨['a', 'b'], fun e a => decide (e = a)⟩, [0],
    [(0, 'a', ∅, 0), (0, 'a', ∅, 0)]⟩, 0, .buchi⟩

/-- `Iterator::max`: the greatest element of a list of naturals, `none` on
the empty list. -/
def listMaxOpt : List ℕ → Option ℕ
  | [] => none
  | x :: xs =>
      some (match listMaxOpt xs with
            | none => x
            | some m => max x m)

/-- `edge_colors_unique`: every distinct edge color, each exactly once. -/
def DTS.edgeColorsUnique {Sym E Q C : Type} [DecidableEq C]
    (d : DTS Sym E Q C) : List C :=
  (d.nts.edges.map fun e => e.2.2.1).dedup

/-- `map_edge_colors`: the same graph with every edge color passed through
`f`. -/
def NTS.mapEdgeColors {Sym E Q C X : Type} (n : NTS Sym E Q C) (f : C → X) :
    NTS Sym E Q X :=
  ⟨n.alphabet, n.states, n.edges.map fun t => (t.1, t.2.1, f t.2.2.1, t.2.2.2)⟩

/-- `DeterministicOmegaAutomaton::into_dpa` from src/src/automaton/omega.rs:
asserts that the condition is literally `Parity` (panic modelled as `none`),
computes the neutral priority as the maximum over
`edge_colors_unique().filter_map(try_as_priority)` (the `expect` panics, as
`none`, when no mask yields a priority), and recolors every edge with
`try_as_priority().unwrap_or(neutral)`; the pointed result keeps the initial
state. -/
def DeterministicOmegaAutomatonM.intoDpa {Sym E : Type}
    (d : DeterministicOmegaAutomatonM Sym E) : Option (DTS Sym E ℕ ℕ × ℕ) :=
  if d.acc.isParity then
    match listMaxOpt ((d.ts.edgeColorsUnique).filterMap AcceptanceMask.tryAsPriority) with
    | none => none
    | some neutral =>
        some (⟨d.ts.nts.mapEdgeColors fun mask =>
          (mask.tryAsPriority).getD neutral⟩, d.initial)
  else none

/-- A concrete deterministic omega automaton with a `Parity` condition, one
edge carrying the mask `{1}` and one edge carrying the empty mask. -/
def doaW : DeterministicOmegaAutomatonM Char Char :=
  ⟨⟨⟨⟨['a', 'b'], fun e a => decide (e = a)⟩, [0],
    [(0, 'a', {1}, 0), (0, 'b', ∅, 0)]⟩⟩, 0, .parity 0 2⟩

/-- A DFA over `Char`: boolean state colors indexed by position, edges
`(source, symbol, target)`, and an initial state. -/
structure DFAM where
  states : List Bool
  edges : List (ℕ × Char × ℕ)
  initial : ℕ

/-- One deterministic step through a `RestrictByStateIndex` view with filter
`f`: per src/crates/automata/src/ts/operations/restricted.rs, a masked source
has no outgoing edges (`edges_from` returns `None`), and outgoing edges whose
target is masked are dropped from iteration; among the remaining edges the
first one matching the symbol is taken. -/
def restrictedStep (dfa : DFAM) (f : ℕ → Bool) (q : ℕ) (a : Char) : Option ℕ :=
  if f q then
    match dfa.edges.find? fun t => decide (t.1 = q) && decide (t.2.1 = a) && f t.2.2 with
    | some t => some t.2.2
    | none => none
  else none

/-- Modelled from the spec: the deterministic finite run (the run code is not
among the sources) — successive `transition` steps from a state through the
word, failing when some step has no matching transition. -/
def restrictedRunFrom (dfa : DFAM) (f : ℕ → Bool) : ℕ → List Char → Option ℕ
  | q, [] => some q
  | q, a :: w =>
      match restrictedStep dfa f q a with
      | none => none
      | some q' => restrictedRunFrom dfa f q' w

/-- Modelled from the spec: DFA acceptance — the word is accepted when the
run from the initial state succeeds and ends in a `true`-colored state; a
masked initial state rejects everything. -/
def restrictedAccepts (dfa : DFAM) (f : ℕ → Bool) (w : List Char) : Bool :=
  if f dfa.initial then
    match restrictedRunFrom dfa f dfa.initial w with
    | none => false
    | some q => dfa.states.getD q false
  else false

/-- The 3-state mod-3 counter DFA of the `restrict_ts_by_state_index` test:
states 0,1,2 with only state 2 accepting, transitions
`(0,a,1),(0,b,0),(1,a,2),(1,b,1),(2,a,0),(2,b,2)`, initial state 0. -/
def dfa3 : DFAM :=
  ⟨[false, false, true],
   [(0, 'a', 1), (0, 'b', 0), (1, 'a', 2), (1, 'b', 1), (2, 'a', 0), (2, 'b', 2)],
   0⟩

/-- A discarded partial body preceding an `--ABORT--` marker. -/
def c3a : List Char := ("junk ").toList

/-- The body of the well-formed automaton block following the marker. -/
def c3b : List Char := (" HOA-B ").toList

/-- Whether the string (as a character list) starts with the pattern. -/
def strStartsWith : List Char → List Char → Bool
  | _, [] => true
  | [], _ :: _ => false
  | c :: s, p :: pat => decide (c = p) && strStartsWith s pat

/-- Worker for leftmost-occurrence search: the first position (offset by `n`)
at which the pattern starts. -/
def strFindAux (pat : List Char) : List Char → ℕ → Option ℕ
  | [], n => if strStartsWith [] pat then some n else none
  | c :: t, n =>
      if strStartsWith (c :: t) pat then some n else strFindAux pat t (n + 1)

/-- `str::find`: the position of the leftmost occurrence of the pattern. -/
def strFind (s pat : List Char) : Option ℕ :=
  strFindAux pat s 0

/-- `str::trim_start`: drop leading whitespace. -/
def trimStart (s : List Char) : List Char :=
  s.dropWhile fun c => c.isWhitespace

/-- The literal `--ABORT--` marker of src/src/hoa/input.rs. -/
def abortMarker : List Char := ("--ABORT--").toList

/-- The literal `--END--` marker of src/src/hoa/input.rs. -/
def endMarker : List Char := ("--END--").toList

/-- `parse_omega_automaton_range`: hand the slice `hoa[start..end]` to the
parser (the external `hoars` parser composed with the structural converter,
modelled as the function argument `parse`); a parse diagnostic yields
`none`. -/
def parseOmegaAutomatonRange {α : Type} (parse : List Char → Option α)
    (hoa : List Char) (s e : ℕ) : Option α :=
  parse ((hoa.drop s).take (e - s))

/-- `pop_omega_automaton` from src/src/hoa/input.rs: branch on the positions
of the first `--ABORT--` and the first `--END--`; parse up to and including
the first `--END--`, starting strictly after `--ABORT--` when that marker
comes first; return the parsed automaton together with the trimmed remainder
after `--END--`; without a complete `--END--`-terminated block return
`none`. -/
def popOmegaAutomaton {α : Type} (parse : List Char → Option α)
    (hoa : List Char) : Option (α × List Char) :=
  match strFind hoa abortMarker, strFind hoa endMarker with
  | none, some pos =>
      match parseOmegaAutomatonRange parse hoa 0 (pos + endMarker.length) with
      | none => none
      | some aut => some (aut, trimStart (hoa.drop (pos + endMarker.length)))
  | some _, none => none
  | some abort, some endPos =>
      if abort < endPos then
        match parseOmegaAutomatonRange parse hoa (abort + abortMarker.length)
            (endPos + endMarker.length) with
        | none => none
        | some aut => some (aut, trimStart (hoa.drop (endPos + endMarker.length)))
      else
        match parseOmegaAutomatonRange parse hoa 0 (endPos + endMarker.length) with
        | none => none
        | some aut => some (aut, trimStart (hoa.drop (endPos + endMarker.length)))
  | none, none => none

lemma finsetMin_empty : finsetMin ∅ = none := by
  simp [finsetMin]

lemma finsetMin_of_nonempty {s : Finset ℕ} (h : s.Nonempty) :
    finsetMin s = some (s.min' h) := by
  simp [finsetMin, h]

lemma finsetMin_eq_none {s : Finset ℕ} (h : finsetMin s = none) : s = ∅ := by
  by_contra hne
  rw [finsetMin_of_nonempty (Finset.nonempty_iff_ne_empty.mpr hne)] at h
  exact Option.noConfusion h

/-- The minimum over the per-mask minima equals the minimum over the union of
the masks, provided every mask is nonempty. -/
lemma finsetMin_image_getD (s : Finset (Finset ℕ)) (h : ∀ m ∈ s, m.Nonempty) :
    finsetMin (s.image fun m => (finsetMin m).getD 0) = finsetMin (s.sup id) := by
  rcases s.eq_empty_or_nonempty with rfl | hs
  · simp
  · have himg : (s.image fun m => (finsetMin m).getD 0).Nonempty := hs.image _
    obtain ⟨m₀, hm₀⟩ := hs
    obtain ⟨x₀, hx₀⟩ := h m₀ hm₀
    have hsup : (s.sup id).Nonempty :=
      ⟨x₀, Finset.mem_sup.mpr ⟨m₀, hm₀, hx₀⟩⟩
    rw [finsetMin_of_nonempty himg, finsetMin_of_nonempty hsup]
    have hval : ∀ m, ∀ hm : m ∈ s, (finsetMin m).getD 0 = m.min' (h m hm) := by
      intro m hm
      rw [finsetMin_of_nonempty (h m hm)]
      rfl
    congr 1
    apply le_antisymm
    · -- the least per-mask minimum is at most the least element of the union
      have hmem := (s.sup id).min'_mem hsup
      obtain ⟨m, hm, hxm⟩ := Finset.mem_sup.mp hmem
      have h1 : (s.image fun m => (finsetMin m).getD 0).min' himg ≤
          (finsetMin m).getD 0 :=
        Finset.min'_le _ _ (Finset.mem_image_of_mem _ hm)
      have h2 : (finsetMin m).getD 0 ≤ (s.sup id).min' hsup := by
        rw [hval m hm]
        exact Finset.min'_le _ _ hxm
      exact le_trans h1 h2
    · -- the least element of the union is at most each per-mask minimum
      obtain ⟨m, hm, hmin⟩ :=
        Finset.mem_image.mp ((s.image fun m => (finsetMin m).getD 0).min'_mem himg)
      rw [← hmin, hval m hm]
      apply Finset.min'_le
      exact Finset.mem_sup.mpr ⟨m, hm, m.min'_mem (h m hm)⟩

example : finsetMin ({2, 5} : Finset ℕ) = some 2 := by decide
example : OmegaAcceptanceCondition.satisfied (.parity 0 2) ∅ = some false := by decide
example : OmegaAcceptanceCondition.satisfied (.parity 0 2)
    {({2} : AcceptanceMask)} = some true := by decide
example : OmegaAcceptanceCondition.satisfied (.parity 0 2)
    {({1} : AcceptanceMask), ({2} : AcceptanceMask)} = some false := by decide
example : OmegaAcceptanceCondition.satisfied (.parity 0 2)
    {(∅ : AcceptanceMask), ({2} : AcceptanceMask)} = none := by decide

/-- C1 (amended): for `Parity(low, high)` and a finite set `infset` of
acceptance masks in which every mask is nonempty, `satisfied` returns a
boolean, and it returns `true` exactly when some index occurs among the masks
and the minimum occurring index is even (for the empty `infset` it returns
`false`).  (As stated, C1 fails: a set containing an empty mask makes
`as_priority` panic instead of returning a boolean.) -/
theorem satisfied_parity_characterization (low high : ℕ)
    (infset : Finset AcceptanceMask) (h : ∀ m ∈ infset, m.Nonempty) :
    (∃ b, (OmegaAcceptanceCondition.parity low high).satisfied infset = some b) ∧
    ((OmegaAcceptanceCondition.parity low high).satisfied infset = some true ↔
      ∃ p, finsetMin (infset.sup id) = some p ∧ p % 2 = 0) ∧
    (OmegaAcceptanceCondition.parity low high).satisfied
      (∅ : Finset AcceptanceMask) = some false := by
  have hsat : (OmegaAcceptanceCondition.parity low high).satisfied infset =
      some (match finsetMin (infset.image fun m => (finsetMin m).getD 0) with
            | none => false
            | some p => decide (p % 2 = 0)) := by
    simp only [OmegaAcceptanceCondition.satisfied, dif_pos h]
  refine ⟨⟨_, hsat⟩, ?_, ?_⟩
  · rw [hsat, finsetMin_image_getD infset h]
    constructor
    · intro heq
      match hmin : finsetMin (infset.sup id) with
      | none => rw [hmin] at heq; exact absurd (Option.some.inj heq) (by simp)
      | some p =>
          refine ⟨p, rfl, ?_⟩
          rw [hmin] at heq
          simpa using Option.some.inj heq
    · rintro ⟨p, hp, hpar⟩
      rw [hp]
      simp [hpar]
  · simp only [OmegaAcceptanceCondition.satisfied]
    rw [dif_pos (by intro m hm; exact absurd hm (Finset.not_mem_empty m))]
    simp [finsetMin_empty]

/-- C1 witness: the amended theorem applied to the concrete set `{{2}}`,
whose satisfaction evaluates to `true`. -/
theorem satisfied_parity_characterization_witness :
    (∀ m ∈ ({({2} : AcceptanceMask)} : Finset AcceptanceMask), m.Nonempty) ∧
    ((∃ b, (OmegaAcceptanceCondition.parity 0 2).satisfied
        {({2} : AcceptanceMask)} = some b) ∧
     ((OmegaAcceptanceCondition.parity 0 2).satisfied
        {({2} : AcceptanceMask)} = some true ↔
       ∃ p, finsetMin (({({2} : AcceptanceMask)} : Finset AcceptanceMask).sup id)
          = some p ∧ p % 2 = 0) ∧
     (OmegaAcceptanceCondition.parity 0 2).satisfied
        (∅ : Finset AcceptanceMask) = some false) :=
  ⟨by decide, satisfied_parity_characterization 0 2 {({2} : AcceptanceMask)} (by decide)⟩

/-- C1 counterexample: on the nonempty set `{∅, {2}}` the minimum occurring
acceptance-set index is `2`, which is even, so the claim as stated demands
`satisfied = true`; but the code panics on the empty mask (modelled as
`none`), returning no boolean at all. -/
theorem satisfied_parity_counterexample :
    (OmegaAcceptanceCondition.parity 0 2).satisfied
      {(∅ : AcceptanceMask), ({2} : AcceptanceMask)} = none ∧
    ({(∅ : AcceptanceMask), ({2} : AcceptanceMask)} : Finset AcceptanceMask).Nonempty ∧
    finsetMin (({(∅ : AcceptanceMask), ({2} : AcceptanceMask)} :
        Finset AcceptanceMask).sup id) = some 2 := by
  refine ⟨by decide, ⟨∅, by decide⟩, by decide⟩

/-- C6: contrary to the claim, `to_char` is not rejected beyond four
propositions: the symbol with `repr = 16` over five propositions (the
valuation setting exactly the fifth proposition) passes the `aps <= MAX_APS`
assertion and is silently truncated by `& 0b1111` to `'a'`, the letter of the
all-false valuation. -/
theorem toChar_silently_truncates :
    (HoaSymbol.mk 16 5).aps > 4 ∧ (HoaSymbol.mk 16 5).toChar = some 'a' := by
  exact ⟨by decide, by decide⟩

/-- C9 (amended): `HoaSymbol` declares the ordering interface, but the
comparison body is `todo!()`: every invocation aborts (modelled as `none`)
instead of returning an `Ordering`. -/
theorem hoaSymbol_cmp_always_aborts (s t : HoaSymbol) : s.cmp t = none := rfl

/-- C9 counterexample: comparing the symbol `repr = 0, aps = 1` with itself
aborts instead of returning an ordering result, so `HoaSymbol` values are not
comparable as claimed. -/
theorem hoaSymbol_cmp_counterexample :
    (HoaSymbol.mk 0 1).cmp (HoaSymbol.mk 0 1) = none := rfl

/-- C10: a symbol over at most four propositions with representation between
1 and 15 round-trips through `to_char`/`from_char`; but the all-false
valuation (`repr = 0`) maps to `'a'`, and `from_char('a', aps)` aborts for
every proposition count because of the strict `'a' < value` assertion. -/
theorem toChar_fromChar_roundtrip (s : HoaSymbol) (h1 : s.aps ≤ 4)
    (h2 : 1 ≤ s.repr) (h3 : s.repr ≤ 15) :
    (∃ c, s.toChar = some c ∧ HoaSymbol.fromChar c s.aps = some s) ∧
    (∀ aps ≤ MAX_APS, (HoaSymbol.mk 0 aps).toChar = some 'a' ∧
      HoaSymbol.fromChar 'a' aps = none) := by
  obtain ⟨r, a⟩ := s
  simp only at h1 h2 h3
  have ha8 : a ≤ 8 := by omega
  have h97 : 'a'.toNat = 97 := rfl
  constructor
  · refine ⟨Char.ofNat (97 + r % 16), ?_, ?_⟩
    · simp only [HoaSymbol.toChar, MAX_APS, h97]
      rw [if_pos ha8]
    · have hr : r % 16 = r := Nat.mod_eq_of_lt (by omega)
      rw [hr]
      simp only [HoaSymbol.fromChar, MAX_APS, h97]
      rw [if_pos ⟨ha8, by interval_cases r <;> exact (by decide)⟩]
      have hc : (Char.ofNat (97 + r)).toNat = 97 + r := by
        interval_cases r <;> decide
      rw [hc]
      have hm : (97 + r - 97) % 16 = r := by omega
      rw [hm]
  · intro aps haps
    refine ⟨?_, ?_⟩
    · simp only [HoaSymbol.toChar, MAX_APS] at haps ⊢
      rw [if_pos haps]
      rfl
    · simp only [HoaSymbol.fromChar, h97]
      rw [if_neg]
      rintro ⟨-, hlt, -⟩
      exact absurd hlt (by decide)

/-- C10 witness: the round-trip theorem applied to the concrete symbol
`repr = 3, aps = 2`, which packs to `'d'` and unpacks back. -/
theorem toChar_fromChar_roundtrip_witness :
    ((HoaSymbol.mk 3 2).aps ≤ 4 ∧ 1 ≤ (HoaSymbol.mk 3 2).repr ∧
      (HoaSymbol.mk 3 2).repr ≤ 15) ∧
    ((∃ c, (HoaSymbol.mk 3 2).toChar = some c ∧
        HoaSymbol.fromChar c (HoaSymbol.mk 3 2).aps = some (HoaSymbol.mk 3 2)) ∧
     (∀ aps ≤ MAX_APS, (HoaSymbol.mk 0 aps).toChar = some 'a' ∧
        HoaSymbol.fromChar 'a' aps = none)) :=
  ⟨by decide,
   toChar_fromChar_roundtrip (HoaSymbol.mk 3 2) (by decide) (by decide) (by decide)⟩

/-- C4: evaluation at the failing input.  Over an alphabet with one atomic
proposition, take the expression whose BDD has the single satisfying
valuation `1` (the exact-match expression of the symbol `repr = 1, aps = 1`).
Its `symbols()` enumeration yields the symbol `⟨1, MAX_APS⟩` — satisfying
valuations range over all `MAX_APS` BDD variables and the produced symbols
carry `aps = num_vars = MAX_APS` — whereas
`{ s ∈ universe() | e.matches(s) }` is `{⟨1, 1⟩}`; the two sets differ, so
the claimed enumeration completeness fails. -/
theorem hoaExpression_symbols_failing_input :
    (HoaExpression.mk {(1 : BddValuation)} 1).symbols =
      {HoaSymbol.mk 1 MAX_APS} ∧
    hoaUniverse 1 = some {HoaSymbol.mk 0 1, HoaSymbol.mk 1 1} ∧
    Finset.filter
      (fun s => (HoaExpression.mk {(1 : BddValuation)} 1).matches s = some true)
      {HoaSymbol.mk 0 1, HoaSymbol.mk 1 1} = {HoaSymbol.mk 1 1} ∧
    ({HoaSymbol.mk 1 MAX_APS} : Finset HoaSymbol) ≠ {HoaSymbol.mk 1 1} := by
  refine ⟨by decide, by decide, by decide, by decide⟩

/-- C8: evaluation at the failing input.  Two alphabets over the same single
proposition name, one with an empty expression cache and one that has
memoized the exact-match expression of the all-false symbol: the derived
`PartialEq` compares the cache field as well and reports them unequal, even
though their proposition-name lists agree. -/
theorem hoaAlphabet_eq_includes_cache :
    (HoaAlphabet.mk ["p0"] ∅).apnames =
      (HoaAlphabet.mk ["p0"] {HoaExpression.mk {(0 : BddValuation)} 1}).apnames ∧
    HoaAlphabet.eqTest (HoaAlphabet.mk ["p0"] ∅)
      (HoaAlphabet.mk ["p0"] {HoaExpression.mk {(0 : BddValuation)} 1}) = false := by
  refine ⟨rfl, by decide⟩

lemma isDeterministic_false_iff {Sym E Q C : Type} (nts : NTS Sym E Q C) :
    nts.isDeterministic = false ↔ nts.hasCommonMatch := by
  rw [NTS.isDeterministic, NTS.hasCommonMatch]
  rw [Bool.eq_false_iff]
  simp only [ne_eq, List.all_eq_true, Bool.or_eq_true, decide_eq_true_eq,
    Bool.not_eq_true', Bool.and_eq_false_iff]
  push_neg
  constructor
  · rintro ⟨p, hp, q, hq, ⟨h1, h2⟩, a, ha, m1, m2⟩
    exact ⟨p, hp, q, hq, h1, h2, a, ha,
      Bool.ne_false_iff.mp m1, Bool.ne_false_iff.mp m2⟩
  · rintro ⟨p, hp, q, hq, h1, h2, a, ha, m1, m2⟩
    exact ⟨p, hp, q, hq, ⟨h1, h2⟩, a, ha,
      Bool.ne_false_iff.mpr m1, Bool.ne_false_iff.mpr m2⟩

/-- C2: `TryFrom<NTS> for DTS` fails exactly when some state has two edge
occurrences matching a common symbol, and otherwise wraps the same states and
edges unchanged; lifted to `TryFrom<OmegaAutomaton> for
DeterministicOmegaAutomaton`, the conversion fails under the same condition
on the underlying graph and on success passes the graph, the initial state
and the acceptance condition through unchanged. -/
theorem tryFromNTS_characterization {Sym E Q C : Type} (nts : NTS Sym E Q C)
    (oa : OmegaAutomatonM Sym E) :
    (DTS.tryFromNTS nts = none ↔ nts.hasCommonMatch) ∧
    (∀ d, DTS.tryFromNTS nts = some d → d.nts = nts) ∧
    (DeterministicOmegaAutomatonM.tryFromOmega oa = none ↔ oa.ts.hasCommonMatch) ∧
    (∀ doa, DeterministicOmegaAutomatonM.tryFromOmega oa = some doa →
      doa.ts.nts = oa.ts ∧ doa.initial = oa.initial ∧ doa.acc = oa.acc) := by
  have hbase : ∀ {Q' C' : Type} (n : NTS Sym E Q' C'),
      (DTS.tryFromNTS n = none ↔ n.hasCommonMatch) ∧
      (∀ d, DTS.tryFromNTS n = some d → d.nts = n) := by
    intro Q' C' n
    constructor
    · rw [← isDeterministic_false_iff]
      unfold DTS.tryFromNTS
      cases h : n.isDeterministic <;> simp [h]
    · intro d hd
      unfold DTS.tryFromNTS at hd
      cases h : n.isDeterministic <;> rw [h] at hd
      · simp at hd
      · simp only [if_pos] at hd
        rw [← Option.some.inj hd]
  refine ⟨(hbase nts).1, (hbase nts).2, ?_, ?_⟩
  · unfold DeterministicOmegaAutomatonM.tryFromOmega
    cases h : DTS.tryFromNTS oa.ts
    · exact iff_of_true rfl ((hbase oa.ts).1.mp h)
    · refine iff_of_false (by simp) fun hc => ?_
      rw [(hbase oa.ts).1.mpr hc] at h
      exact Option.noConfusion h
  · intro doa hd
    unfold DeterministicOmegaAutomatonM.tryFromOmega at hd
    cases h : DTS.tryFromNTS oa.ts <;> rw [h] at hd
    · exact Option.noConfusion hd
    · rw [← Option.some.inj hd]
      exact ⟨(hbase oa.ts).2 _ h, rfl, rfl⟩

/-- C2 witness: the characterization applied to a concrete deterministic NTS
(one `'a'`-edge, which converts successfully and unchanged) and to a concrete
omega automaton with two `'a'`-edges from state 0 (whose conversion fails). -/
theorem tryFromNTS_characterization_witness :
    (DTS.mk ntsW).nts = ntsW ∧
    DeterministicOmegaAutomatonM.tryFromOmega oaW = none :=
  ⟨(tryFromNTS_characterization ntsW oaW).2.1 (DTS.mk ntsW) rfl,
   (tryFromNTS_characterization ntsW oaW).2.2.1.mpr
     (by unfold NTS.hasCommonMatch; decide)⟩

lemma listMaxOpt_spec (l : List ℕ) (h : l ≠ []) :
    ∃ m, listMaxOpt l = some m ∧ m ∈ l ∧ ∀ a ∈ l, a ≤ m := by
  induction l with
  | nil => exact absurd rfl h
  | cons x xs ih =>
    rcases eq_or_ne xs [] with rfl | hne
    · exact ⟨x, rfl, by simp, by simp⟩
    · obtain ⟨m, hm, hmem, hb⟩ := ih hne
      refine ⟨max x m, ?_, ?_, ?_⟩
      · simp [listMaxOpt, hm]
      · rcases max_cases x m with ⟨heq, -⟩ | ⟨heq, -⟩ <;> rw [heq]
        · exact List.mem_cons_self x xs
        · exact List.mem_cons_of_mem _ hmem
      · intro a ha
        rcases List.mem_cons.mp ha with rfl | ha
        · exact le_max_left _ _
        · exact le_trans (hb a ha) (le_max_right _ _)

lemma tryAsPriority_eq_finsetMin (m : AcceptanceMask) :
    m.tryAsPriority = finsetMin m := rfl

/-- C7: `into_dpa` requires the condition to literally be `Parity` (anything
else panics); when some edge mask is nonempty it succeeds, the neutral
priority is attained by some edge mask's priority and dominates every edge
mask's priority, the graph keeps its alphabet, states, edge count and initial
state, and every edge is recolored to its mask's minimum index when the mask
is nonempty and to the neutral priority when the mask is empty. -/
theorem intoDpa_characterization {Sym E : Type}
    (d : DeterministicOmegaAutomatonM Sym E) :
    (d.acc.isParity = false → d.intoDpa = none) ∧
    (d.acc.isParity = true →
     (∃ e ∈ d.ts.nts.edges, ((e.2.2.1 : Finset ℕ)).Nonempty) →
     ∃ neutral dpa,
       d.intoDpa = some (dpa, d.initial) ∧
       (∃ e ∈ d.ts.nts.edges,
          AcceptanceMask.tryAsPriority e.2.2.1 = some neutral) ∧
       (∀ e ∈ d.ts.nts.edges, ∀ p,
          AcceptanceMask.tryAsPriority e.2.2.1 = some p → p ≤ neutral) ∧
       dpa.nts.alphabet = d.ts.nts.alphabet ∧
       dpa.nts.states = d.ts.nts.states ∧
       dpa.nts.edges.length = d.ts.nts.edges.length ∧
       (∀ e ∈ d.ts.nts.edges,
         (∀ p, AcceptanceMask.tryAsPriority e.2.2.1 = some p →
            (e.1, e.2.1, p, e.2.2.2) ∈ dpa.nts.edges) ∧
         ((e.2.2.1 : Finset ℕ) = ∅ →
            (e.1, e.2.1, neutral, e.2.2.2) ∈ dpa.nts.edges))) := by
  constructor
  · intro hnp
    simp [DeterministicOmegaAutomatonM.intoDpa, hnp]
  · intro hp hex
    obtain ⟨e0, he0, hne0⟩ := hex
    have htry0 : AcceptanceMask.tryAsPriority e0.2.2.1 =
        some ((e0.2.2.1 : Finset ℕ).min' hne0) := by
      rw [tryAsPriority_eq_finsetMin]
      exact finsetMin_of_nonempty hne0
    have hdedup : e0.2.2.1 ∈ d.ts.edgeColorsUnique := by
      rw [DTS.edgeColorsUnique]
      exact List.mem_dedup.mpr (List.mem_map_of_mem _ he0)
    have hfm : ((e0.2.2.1 : Finset ℕ).min' hne0) ∈
        (d.ts.edgeColorsUnique).filterMap AcceptanceMask.tryAsPriority :=
      List.mem_filterMap.mpr ⟨_, hdedup, htry0⟩
    obtain ⟨neutral, hmax, hnmem, hbound⟩ :=
      listMaxOpt_spec _ (List.ne_nil_of_mem hfm)
    refine ⟨neutral,
      ⟨d.ts.nts.mapEdgeColors fun m => (m.tryAsPriority).getD neutral⟩,
      ?_, ?_, ?_, rfl, rfl, ?_, ?_⟩
    · simp [DeterministicOmegaAutomatonM.intoDpa, hp, hmax]
    · obtain ⟨c, hc, hcn⟩ := List.mem_filterMap.mp hnmem
      rw [DTS.edgeColorsUnique] at hc
      obtain ⟨e, he, rfl⟩ := List.mem_map.mp (List.mem_dedup.mp hc)
      exact ⟨e, he, hcn⟩
    · intro e he p hp'
      apply hbound
      apply List.mem_filterMap.mpr
      refine ⟨e.2.2.1, ?_, hp'⟩
      rw [DTS.edgeColorsUnique]
      exact List.mem_dedup.mpr (List.mem_map_of_mem _ he)
    · simp [NTS.mapEdgeColors]
    · intro e he
      constructor
      · intro p hp'
        apply List.mem_map.mpr
        exact ⟨e, he, by simp [hp']⟩
      · intro hemp
        apply List.mem_map.mpr
        refine ⟨e, he, ?_⟩
        have : AcceptanceMask.tryAsPriority e.2.2.1 = none := by
          rw [tryAsPriority_eq_finsetMin, hemp]
          exact finsetMin_empty
        simp [this]

/-- C7 witness: the characterization applied to the concrete automaton with
edges `(0,'a',{1},0)` and `(0,'b',∅,0)` under `Parity(0,2)`; its conversion
succeeds with neutral priority 1. -/
theorem intoDpa_characterization_witness :
    ∃ neutral dpa,
      doaW.intoDpa = some (dpa, doaW.initial) ∧
      (∃ e ∈ doaW.ts.nts.edges,
         AcceptanceMask.tryAsPriority e.2.2.1 = some neutral) ∧
      (∀ e ∈ doaW.ts.nts.edges, ∀ p,
         AcceptanceMask.tryAsPriority e.2.2.1 = some p → p ≤ neutral) ∧
      dpa.nts.alphabet = doaW.ts.nts.alphabet ∧
      dpa.nts.states = doaW.ts.nts.states ∧
      dpa.nts.edges.length = doaW.ts.nts.edges.length ∧
      (∀ e ∈ doaW.ts.nts.edges,
        (∀ p, AcceptanceMask.tryAsPriority e.2.2.1 = some p →
           (e.1, e.2.1, p, e.2.2.2) ∈ dpa.nts.edges) ∧
        ((e.2.2.1 : Finset ℕ) = ∅ →
           (e.1, e.2.1, neutral, e.2.2.2) ∈ dpa.nts.edges)) :=
  (intoDpa_characterization doaW).2 (by decide)
    ⟨(0, 'a', {1}, 0), by simp [doaW], by decide⟩

/-- C5 counterexample: restricting out state 2 makes the DFA reject `"aa"`,
contrary to the claim that it still accepts — the `"aa"` run `0 → 1 → 2` ends
in state 2, so hiding state 2 drops the edge `(1,a,2)` and the run fails;
the repository's own test asserts this rejection. -/
theorem dfa3_restrict2_counterexample :
    restrictedAccepts dfa3 (fun i => decide (i ≠ 2)) ['a', 'a'] = false := by
  decide

/-- C5 (amended): the unrestricted DFA accepts `"aa"`, and restricting out
any one of the three states — including state 2, which the claim wrongly
calls unused on the `"aa"` path — makes it reject `"aa"`. -/
theorem dfa3_restriction_behavior :
    restrictedAccepts dfa3 (fun _ => true) ['a', 'a'] = true ∧
    restrictedAccepts dfa3 (fun i => decide (i ≠ 0)) ['a', 'a'] = false ∧
    restrictedAccepts dfa3 (fun i => decide (i ≠ 1)) ['a', 'a'] = false ∧
    restrictedAccepts dfa3 (fun i => decide (i ≠ 2)) ['a', 'a'] = false := by
  refine ⟨by decide, by decide, by decide, by decide⟩

lemma strStartsWith_append_self (pat rest : List Char) :
    strStartsWith (pat ++ rest) pat = true := by
  induction pat with
  | nil => cases rest <;> rfl
  | cons p ps ih => simp [strStartsWith, ih]

lemma strFindAux_spec (pat s : List Char) (n i : ℕ)
    (hi : strStartsWith (s.drop i) pat = true)
    (hmin : ∀ j < i, strStartsWith (s.drop j) pat = false) :
    strFindAux pat s n = some (n + i) := by
  induction s generalizing n i with
  | nil =>
    cases i with
    | zero => simp only [List.drop_zero] at hi; simp [strFindAux, hi]
    | succ i' =>
      have h0 := hmin 0 (Nat.succ_pos _)
      rw [List.drop_nil] at hi h0
      rw [hi] at h0
      exact Bool.noConfusion h0
  | cons c t ih =>
    cases i with
    | zero =>
      rw [List.drop_zero] at hi
      simp [strFindAux, hi]
    | succ i' =>
      have h0 := hmin 0 (Nat.succ_pos _)
      rw [List.drop_zero] at h0
      have hi' : strStartsWith (t.drop i') pat = true := by
        rwa [List.drop_succ_cons] at hi
      have hmin' : ∀ j < i', strStartsWith (t.drop j) pat = false := by
        intro j hj
        have := hmin (j + 1) (by omega)
        rwa [List.drop_succ_cons] at this
      have harith : n + 1 + i' = n + (i' + 1) := by omega
      rw [strFindAux, h0]
      simp only [Bool.false_eq_true, if_false]
      rw [ih (n + 1) i' hi' hmin', harith]

lemma strFind_spec (s pat : List Char) (i : ℕ)
    (hi : strStartsWith (s.drop i) pat = true)
    (hmin : ∀ j < i, strStartsWith (s.drop j) pat = false) :
    strFind s pat = some i := by
  have := strFindAux_spec pat s 0 i hi hmin
  simpa [strFind] using this

/-- C3: on input `a ++ "--ABORT--" ++ b ++ "--END--"` where the `--ABORT--`
found is the first one and no `--END--` occurs before the final one,
`pop_omega_automaton` hands the parser exactly the text strictly after
`--ABORT--` up to and including `--END--` (so a valid automaton B there is
returned), with an empty residual string; and on any input without a
complete `--END--`-terminated block it returns `none`. -/
theorem popOmegaAutomaton_spec {α : Type} (parse : List Char → Option α)
    (a b : List Char) (B : α)
    (hA : ∀ i < a.length,
      strStartsWith ((a ++ abortMarker ++ b ++ endMarker).drop i) abortMarker
        = false)
    (hE : ∀ i < a.length + abortMarker.length + b.length,
      strStartsWith ((a ++ abortMarker ++ b ++ endMarker).drop i) endMarker
        = false)
    (hparse : parse (b ++ endMarker) = some B) :
    popOmegaAutomaton parse (a ++ abortMarker ++ b ++ endMarker)
      = some (B, []) ∧
    ∀ t, strFind t endMarker = none → popOmegaAutomaton parse t = none := by
  constructor
  · have hsplit : a ++ abortMarker ++ b ++ endMarker
        = a ++ (abortMarker ++ (b ++ endMarker)) := by
      simp [List.append_assoc]
    have hfindA : strFind (a ++ abortMarker ++ b ++ endMarker) abortMarker
        = some a.length := by
      apply strFind_spec _ _ _ _ hA
      rw [hsplit, List.drop_left]
      exact strStartsWith_append_self _ _
    have hfindE : strFind (a ++ abortMarker ++ b ++ endMarker) endMarker
        = some (a.length + abortMarker.length + b.length) := by
      apply strFind_spec _ _ _ _ hE
      have hsplit2 : a ++ abortMarker ++ b ++ endMarker
          = (a ++ abortMarker ++ b) ++ endMarker := by
        simp [List.append_assoc]
      have hlen : (a ++ abortMarker ++ b).length
          = a.length + abortMarker.length + b.length := by
        simp only [List.length_append]
        try omega
      rw [hsplit2, ← hlen, List.drop_left, ← List.append_nil endMarker]
      exact strStartsWith_append_self _ _
    unfold popOmegaAutomaton
    rw [hfindA, hfindE]
    have habl : abortMarker.length = 9 := rfl
    have hendl : endMarker.length = 7 := rfl
    dsimp only
    rw [if_pos (by omega)]
    unfold parseOmegaAutomatonRange
    have hdrop : (a ++ abortMarker ++ b ++ endMarker).drop
        (a.length + abortMarker.length) = b ++ endMarker := by
      have hsplit3 : a ++ abortMarker ++ b ++ endMarker
          = (a ++ abortMarker) ++ (b ++ endMarker) := by
        simp [List.append_assoc]
      have hlen2 : (a ++ abortMarker).length = a.length + abortMarker.length :=
        List.length_append _ _
      rw [hsplit3, ← hlen2, List.drop_left]
    rw [hdrop]
    have harith : a.length + abortMarker.length + b.length + endMarker.length
        - (a.length + abortMarker.length) = b.length + endMarker.length := by
      omega
    rw [harith]
    have htake : (b ++ endMarker).take (b.length + endMarker.length)
        = b ++ endMarker := by
      rw [← List.length_append]
      exact List.take_length _
    rw [htake, hparse]
    have hslen : (a ++ abortMarker ++ b ++ endMarker).length
        = a.length + abortMarker.length + b.length + endMarker.length := by
      simp [List.length_append]
      omega
    have hrest : (a ++ abortMarker ++ b ++ endMarker).drop
        (a.length + abortMarker.length + b.length + endMarker.length) = [] := by
      apply List.drop_eq_nil_of_le
      omega
    rw [hrest]
    rfl
  · intro t ht
    unfold popOmegaAutomaton
    rw [ht]
    cases strFind t abortMarker <;> rfl

/-- C3 witness: the extraction theorem applied to the concrete stream
`"junk --ABORT-- HOA-B --END--"` with the identity parser: the popped block
is exactly `" HOA-B --END--"` and the residual is empty. -/
theorem popOmegaAutomaton_spec_witness :
    ((∀ i < c3a.length,
        strStartsWith ((c3a ++ abortMarker ++ c3b ++ endMarker).drop i)
          abortMarker = false) ∧
     (∀ i < c3a.length + abortMarker.length + c3b.length,
        strStartsWith ((c3a ++ abortMarker ++ c3b ++ endMarker).drop i)
          endMarker = false)) ∧
    (popOmegaAutomaton (some : List Char → Option (List Char))
        (c3a ++ abortMarker ++ c3b ++ endMarker)
      = some (c3b ++ endMarker, []) ∧
     ∀ t, strFind t endMarker = none →
       popOmegaAutomaton (some : List Char → Option (List Char)) t = none) :=
  ⟨⟨by decide, by decide⟩,
   popOmegaAutomaton_spec some c3a c3b (c3b ++ endMarker)
     (by decide) (by decide) rfl⟩

end Frieda
